import Mathlib

/-!
# Verification of the foyer SMARTS matcher and bonded-term generator

Shallow embedding of `src/foyer/smarts_parser.py` and `src/foyer/forcefield.py`.

* The plyplus parse tree of a SMARTS rule (grammar in `smarts_parser.py`) is
  embedded as the mutual inductive types `AtomId` / `AtomExpr` / `Items`:
  after plyplus flattens the `@`-marked rules, a pattern is a sequence of
  `atom` and `branch` nodes; a `branch` contains such a sequence again, and
  the grammar guarantees it starts with an `atom`, so a branch node stores
  its first atom's expression and label followed by the remaining items.
* The recursive matcher `Rule._matches` is embedded as `matchesExprFuel`,
  structurally recursive on an explicit fuel argument.  The Python recursion
  always descends from a pattern position into positions drawn from strictly
  smaller item sequences, so the wrapper `matchesExpr` supplies the provably
  sufficient fuel `sizeItems rest + 1` (see `matchesExprFuel_no_outOfFuel`).
* Exceptions (`NotImplementedError` from unimplemented primitives and the
  `AssertionError` from the neighbor-count assert) are modelled with
  `Except MatchError`.
-/

namespace Foyer

/-! ## Pattern AST (the plyplus parse tree of one SMARTS string) -/

mutual

/-- `atom_id` alternatives of the grammar.  `has_label` stores the raw
`LABEL` token including its leading `%` (the matcher strips it, as the
source does with `atom_id.tail[0][1:]`); `matches_string` stores the parsed
sub-pattern `$(...)`, which the matcher never inspects. -/
inductive AtomId where
  | any_atom : AtomId
  | atomic_num (n : Nat) : AtomId
  | atom_symbol (s : String) : AtomId
  | has_label (s : String) : AtomId
  | neighbor_count (n : Nat) : AtomId
  | ring_size (n : Nat) : AtomId
  | matches_string (first : AtomExpr) (firstLabel : Option Nat) (rest : Items) : AtomId

/-- Boolean tree inside one bracketed atom expression (`or_expression` /
`and_expression` / `atom_id` nodes of the parse tree). -/
inductive AtomExpr where
  | and_expression (l r : AtomExpr) : AtomExpr
  | or_expression (l r : AtomExpr) : AtomExpr
  | atom_id (a : AtomId) : AtomExpr

/-- The sequence of children of a (flattened) `string` node, each an `atom`
node (expression plus optional trailing numeric label) or a `branch` node.
A branch's content is a `string` again, whose first child the grammar
guarantees to be an `atom`; we store that first atom's expression and label
directly in the `branch` constructor, followed by the branch's remaining
children (`content`).  The sibling sequence is encoded in the constructors
themselves (`rest`) rather than through `List`, which keeps the mutual
inductive non-nested. -/
inductive Items where
  | nil : Items
  | atom (e : AtomExpr) (lbl : Option Nat) (rest : Items) : Items
  | branch (e : AtomExpr) (lbl : Option Nat) (content : Items) (rest : Items) : Items

end

/-- The parse tree of a whole SMARTS string: the first `atom` child of the
`start` node followed by the remaining children (`Rule.start_atom_expr`
returns `first`; the siblings `rest` are what `_neighbor_atom_exprs`
walks). -/
structure SmartsAst where
  first : AtomExpr
  firstLabel : Option Nat
  rest : Items

/-- `Rule(name, smarts_string, overrides)`: the overrides are the *names* of
the overridden rules (`set<string>` in the spec's data model). -/
structure Rule where
  name : String
  ast : SmartsAst
  overrides : List String

def defaultAst : SmartsAst := ⟨.atom_id .any_atom, none, .nil⟩

def defaultRule : Rule := ⟨"", defaultAst, []⟩

instance : Inhabited Rule := ⟨defaultRule⟩

/-! ## Atoms, molecules and the per-atom typing state -/

/-- The structural fields of an externally owned atom that the matcher
reads: atomic number and the bonded neighbors (`bond_partners`), given as
indices into the molecule's atom list. -/
structure AtomData where
  atomic_number : Nat
  bond_partners : List Nat
deriving DecidableEq

abbrev Molecule := List AtomData

/-- The two engine-owned output fields of an atom.  In the source the
whitelist is a `set` of `Rule` *objects* and the blacklist a `set` of rule
*name strings* (unioned in from `rule.overrides`).  Rule objects are
identified with their position in the rule list, so the whitelist stores
indices. -/
structure TypeState where
  whitelist : List Nat
  blacklist : List String
deriving DecidableEq

def emptyTS : TypeState := ⟨[], []⟩

def getAtom (mol : Molecule) (i : Nat) : AtomData := mol.getD i ⟨0, []⟩

def getTS (st : List TypeState) (i : Nat) : TypeState := st.getD i emptyTS

/-- `parmed.periodic_table.AtomicNum` restricted to symbols that occur in
force-field SMARTS patterns (an external lookup table; entries as in
parmed). -/
def ptAtomicNum (s : String) : Nat :=
  if s = "H" then 1 else if s = "He" then 2 else if s = "B" then 5
  else if s = "C" then 6 else if s = "N" then 7 else if s = "O" then 8
  else if s = "F" then 9 else if s = "Na" then 11 else if s = "Si" then 14
  else if s = "P" then 15 else if s = "S" then 16 else if s = "Cl" then 17
  else if s = "Br" then 35 else if s = "I" then 53 else 0

/-- Exceptions the matcher can raise: `NotImplementedError` for the
`ring_size` and `matches_string` primitives, `AssertionError` for the
neighbor-count assert in `Rule._matches`.  `outOfFuel` is an artifact of the
fuel embedding and is unreachable for the fuel used by `matchesExpr`. -/
inductive MatchError where
  | notImplemented (feature : String)
  | assertionFailed
  | outOfFuel
deriving DecidableEq

/-! ## The structural matcher (`Rule._matches` and helpers) -/

/-- `Rule._atom_id_matches(atom_id, atom)`. -/
def atom_id_matches (mol : Molecule) (rules : List Rule) (st : List TypeState)
    (a : AtomId) (i : Nat) : Except MatchError Bool :=
  match a with
  | .any_atom => .ok true
  | .atomic_num n => .ok ((getAtom mol i).atomic_number == n)
  | .atom_symbol s => .ok ((getAtom mol i).atomic_number == ptAtomicNum s)
  | .has_label s =>
      -- label = atom_id.tail[0][1:]; label in (rule.name for rule in atom.whitelist)
      .ok (((getTS st i).whitelist.map (fun k => (rules.getD k defaultRule).name)).contains
        (s.drop 1))
  | .neighbor_count n => .ok ((getAtom mol i).bond_partners.length == n)
  | .ring_size _ => .error (.notImplemented "ring_size")
  | .matches_string _ _ _ => .error (.notImplemented "matches_string")

/-- `Rule._atom_expr_matches(atom_expr, atom)`; `and`/`or` short-circuit as
Python's operators do, and an exception raised on the left side
propagates. -/
def atom_expr_matches (mol : Molecule) (rules : List Rule) (st : List TypeState) :
    AtomExpr → Nat → Except MatchError Bool
  | .and_expression l r, i =>
    match atom_expr_matches mol rules st l i with
    | .error e => .error e
    | .ok false => .ok false
    | .ok true => atom_expr_matches mol rules st r i
  | .or_expression l r, i =>
    match atom_expr_matches mol rules st l i with
    | .error e => .error e
    | .ok true => .ok true
    | .ok false => atom_expr_matches mol rules st r i
  | .atom_id a, i => atom_id_matches mol rules st a i

/-- `Rule._neighbor_atom_exprs(atom_expr)`, expressed on the sequence of
items following the current atom node: walk the following siblings; an
`atom` contributes its expression (with its own following siblings as
context) and stops the walk; a `branch` contributes its first atom's
expression (with the branch's remaining items as context) and the walk
continues. -/
def neighbor_atom_exprs : Items → List (AtomExpr × Items)
  | .nil => []
  | .atom e _ rest => [(e, rest)]
  | .branch e _ content rest => (e, content) :: neighbor_atom_exprs rest

/-- Number of item nodes in a sibling sequence, branch contents included;
bounds the depth of the matcher's recursion. -/
def sizeItems : Items → Nat
  | .nil => 0
  | .atom _ _ rest => 1 + sizeItems rest
  | .branch _ _ content rest => 1 + sizeItems content + sizeItems rest

/-- `(x, xs)` for each position of the input list, `xs` being the list with
that position removed (ordered as the positions are). -/
def picks {α : Type} : List α → List (α × List α)
  | [] => []
  | x :: xs => (x, xs) :: (picks xs).map (fun q => (q.1, x :: q.2))

/-- `itertools.permutations(l, k)`: all injective `k`-selections of `l`, in
the order itertools enumerates them. -/
def kperms {α : Type} : Nat → List α → List (List α)
  | 0, _ => [[]]
  | k + 1, l => (picks l).flatMap (fun q => (kperms k q.2).map (fun p => q.1 :: p))

/-- The inner loop of `Rule._matches` over one `possible_match_set`: all
pairs must match; the first recursion returning `False` fails the set, the
first exception propagates. -/
def scanPairs : List (Except MatchError Bool) → Except MatchError Bool
  | [] => .ok true
  | .error e :: _ => .error e
  | .ok false :: _ => .ok false
  | .ok true :: rest => scanPairs rest

/-- The outer loop of `Rule._matches` over `possible_match_sets`: the first
set whose pairs all match succeeds, the first exception reached
propagates, and if no set succeeds the match fails. -/
def scanPerms : List (Except MatchError Bool) → Except MatchError Bool
  | [] => .ok false
  | .error e :: _ => .error e
  | .ok true :: _ => .ok true
  | .ok false :: rest => scanPerms rest

/-- `Rule._matches(atom, atom_expr)` on the position `(e, rest)` (current
atom expression plus its following siblings), with explicit fuel bounding
the recursion depth.  Every recursive call descends into a position whose
item list is strictly smaller, so `matchesExpr` below supplies sufficient
fuel and the `outOfFuel` branch is dead code there. -/
def matchesExprFuel (mol : Molecule) (rules : List Rule) (st : List TypeState) :
    Nat → AtomExpr → Items → Nat → Except MatchError Bool
  | 0, _, _, _ => .error .outOfFuel
  | n + 1, e, rest, i =>
    match atom_expr_matches mol rules st e i with
    | .error err => .error err
    | .ok false => .ok false
    | .ok true =>
      let conts := neighbor_atom_exprs rest
      if conts.isEmpty then .ok true
      else
        let nbrs := (getAtom mol i).bond_partners
        -- assert(len(neighbor_atoms) >= len(neighbor_atom_exprs))
        if nbrs.length < conts.length then .error .assertionFailed
        else
          scanPerms ((kperms conts.length nbrs).map (fun perm =>
            scanPairs ((perm.zip conts).map (fun pr =>
              matchesExprFuel mol rules st n pr.2.1 pr.2.2 pr.1))))

/-- `Rule._matches` at a pattern position, with the sufficient fuel. -/
def matchesExpr (mol : Molecule) (rules : List Rule) (st : List TypeState)
    (e : AtomExpr) (rest : Items) (i : Nat) : Except MatchError Bool :=
  matchesExprFuel mol rules st (sizeItems rest + 1) e rest i

/-- `Rule.matches(atom)`: match the rule's pattern starting at its
`start_atom_expr` (the first atom's expression, whose following siblings are
the rest of the `start` node's children). -/
def Rule.matches (mol : Molecule) (rules : List Rule) (st : List TypeState)
    (r : Rule) (i : Nat) : Except MatchError Bool :=
  matchesExpr mol rules st r.ast.first r.ast.rest i

/-! ## The typing engine (`find_atomtypes`) -/

/-- `set.add` on the whitelist (the element is an index standing for the
added `Rule` object). -/
def wlAdd (k : Nat) (l : List Nat) : List Nat :=
  if k ∈ l then l else l ++ [k]

/-- `atom.blacklist |= rule.overrides` (set union, keeping existing
members). -/
def blUnion (bl : List String) (ov : List String) : List String :=
  ov.foldl (fun b s => if s ∈ b then b else b ++ [s]) bl

/-- The test `rule in atom.blacklist` of `find_atomtypes`.  The blacklist
holds the *name strings* unioned in from `rule.overrides`, while `rule` is a
`Rule` object; a `Rule` object never compares equal to a string, so this
membership test is false for every blacklist entry. -/
def ruleObjInBlacklist (bl : List String) : Bool :=
  bl.any (fun _ => false)

/-- Indexed enumeration of the rule list (`Rule` objects are identified
with their positions). -/
def withIdx {α : Type} : Nat → List α → List (Nat × α)
  | _, [] => []
  | n, x :: xs => (n, x) :: withIdx (n + 1) xs

def setTS (st : List TypeState) (i : Nat) (ts : TypeState) : List TypeState :=
  st.set i ts

/-- The inner `for rule in rules` loop of one pass of `find_atomtypes`, for
the atom at index `i`: skip rules already in the whitelist or (vacuously,
see `ruleObjInBlacklist`) in the blacklist; on a match add the rule to the
whitelist, union its overrides into the blacklist and set
`found_something`.  An exception from `rule.matches` propagates. -/
def applyRules (mol : Molecule) (rules : List Rule) (i : Nat) :
    List (Nat × Rule) → List TypeState → Bool → Except MatchError (List TypeState × Bool)
  | [], st, found => .ok (st, found)
  | (k, r) :: rest, st, found =>
    let ts := getTS st i
    if k ∈ ts.whitelist ∨ ruleObjInBlacklist ts.blacklist = true then
      applyRules mol rules i rest st found
    else
      match Rule.matches mol rules st r i with
      | .error e => .error e
      | .ok true =>
        applyRules mol rules i rest
          (setTS st i ⟨wlAdd k ts.whitelist, blUnion ts.blacklist r.overrides⟩) true
      | .ok false => applyRules mol rules i rest st found

/-- The `for atom in atoms` loop of one pass. -/
def applyAtoms (mol : Molecule) (rules : List Rule) :
    List Nat → List TypeState → Bool → Except MatchError (List TypeState × Bool)
  | [], st, found => .ok (st, found)
  | i :: is', st, found =>
    match applyRules mol rules i (withIdx 0 rules) st found with
    | .error e => .error e
    | .ok (st', found') => applyAtoms mol rules is' st' found'

/-- One full pass of the `while found_something` loop (`found_something`
starts the pass as `False`). -/
def onePass (mol : Molecule) (rules : List Rule) (st : List TypeState) :
    Except MatchError (List TypeState × Bool) :=
  applyAtoms mol rules (List.range mol.length) st false

/-- The `while found_something` loop, bounded by a pass budget.  On budget
exhaustion `none` is returned where Python would keep looping; the
termination theorem shows the budget used by `find_atomtypes` is never
exhausted. -/
def runPasses (mol : Molecule) (rules : List Rule) :
    Nat → List TypeState → Except MatchError (Option (List TypeState))
  | 0, _ => .ok none
  | n + 1, st =>
    match onePass mol rules st with
    | .error e => .error e
    | .ok (st', found) => if found then runPasses mol rules n st' else .ok (some st')

/-- `find_atomtypes(atoms, rules)`.  `stIn` models the whitelist/blacklist
annotations the atoms carry when the engine is entered; the engine resets
every atom's whitelist and blacklist to the empty set before iterating, so
`stIn` is discarded.  The pass budget `|atoms| * |rules| + 1` is sufficient
(see the termination theorem). -/
def find_atomtypes (mol : Molecule) (rules : List Rule) (_stIn : List TypeState) :
    Except MatchError (Option (List TypeState)) :=
  runPasses mol rules (mol.length * rules.length + 1)
    (List.replicate mol.length emptyTS)

/-! ## The bonded-term generator (`forcefield.py`) -/

/-- Insert a node into an adjacency or node list if absent, preserving
first-insertion order (the behavior of networkx's dict-backed graph). -/
def insertNew (l : List Nat) (x : Nat) : List Nat :=
  if x ∈ l then l else l ++ [x]

/-- The nodes of `bondgraph`, in the order `add_edges_from` first sees
them.  Atoms are represented by their `idx`. -/
def gNodes (bonds : List (Nat × Nat)) : List Nat :=
  bonds.foldl (fun acc b => insertNew (insertNew acc b.1) b.2) []

/-- `bondgraph.neighbors(n)`: the adjacency list of `n`, in insertion
order, duplicate edges collapsed. -/
def gNeighbors (bonds : List (Nat × Nat)) (n : Nat) : List Nat :=
  bonds.foldl (fun acc b =>
    let acc' := if b.1 = n then insertNew acc b.2 else acc
    if b.2 = n then insertNew acc' b.1 else acc') []

/-- Truthiness of the two torsion parameter tables of
`structure.parameterset`. -/
structure ParameterSet where
  dihedral_types : Bool
  rb_torsion_types : Bool
deriving DecidableEq

/-- The term lists of the externally owned structure that `create_forces`
appends to. -/
structure FFState where
  angles : List (Nat × Nat × Nat)
  dihedrals : List (Nat × Nat × Nat × Nat)
  rb_torsions : List (Nat × Nat × Nat × Nat)
  impropers : List (Nat × Nat × Nat × Nat)
  adjusts : List (Nat × Nat)
deriving DecidableEq

def emptyFF : FFState := ⟨[], [], [], [], []⟩

/-- `itertools.combinations(l, 2)` in itertools order. -/
def combos2 {α : Type} : List α → List (α × α)
  | [] => []
  | x :: xs => (xs.map (fun y => (x, y))) ++ combos2 xs

/-- `itertools.combinations(l, 3)` in itertools order. -/
def combos3 {α : Type} : List α → List (α × α × α)
  | [] => []
  | x :: xs => ((combos2 xs).map (fun p => (x, p.1, p.2))) ++ combos3 xs

/-- `itertools.product(l1, l2)` in itertools order. -/
def prodList {α β : Type} (l1 : List α) (l2 : List β) : List (α × β) :=
  l1.flatMap (fun x => l2.map (fun y => (x, y)))

/-- `create_angles(structure, node, neighbors)`. -/
def create_angles (s : FFState) (node : Nat) (neighbors : List Nat) : FFState :=
  (combos2 neighbors).foldl
    (fun s p => { s with angles := s.angles ++ [(p.1, node, p.2)] }) s

/-- `create_dihedrals(structure, node_1, neighbors_1, node_2, neighbors_2,
pairs)`.  `set(neighbors_1) - {node_2}` is a filter here because adjacency
lists are duplicate-free; `neighbors_2.remove(node_1)` removes the first
occurrence. -/
def create_dihedrals (ps : ParameterSet) (s : FFState) (node1 : Nat)
    (neighbors1 : List Nat) (node2 : Nat) (neighbors2 : List Nat)
    (pairs : Bool) : FFState :=
  let n1 := neighbors1.filter (fun x => x ≠ node2)
  let n2 := neighbors2.erase node1
  (prodList n1 n2).foldl
    (fun s p =>
      if p.1 ≠ p.2 then
        let s1 := if ps.dihedral_types then
            { s with dihedrals := s.dihedrals ++ [(p.1, node1, node2, p.2)] } else s
        let s2 := if ps.rb_torsion_types then
            { s1 with rb_torsions := s1.rb_torsions ++ [(p.1, node1, node2, p.2)] } else s1
        if pairs then { s2 with adjusts := s2.adjusts ++ [(p.1, p.2)] } else s2
      else s) s

/-- `create_impropers(structure, node, neighbors)`. -/
def create_impropers (s : FFState) (node : Nat) (neighbors : List Nat) : FFState :=
  (combos3 neighbors).foldl
    (fun s t => { s with impropers := s.impropers ++ [(node, t.1, t.2.1, t.2.2)] }) s

/-- `create_forces(structure, angles=True, dihedrals=True, impropers=False,
pairs=True)`: walk the bond graph and append all angle, dihedral (with
optional 1-4 pair) and improper terms to the structure `s0`.  Nodes are
atom indices, so `node_2.idx > node_1.idx` is `node2 > node1`. -/
def create_forces (s0 : FFState) (bonds : List (Nat × Nat)) (ps : ParameterSet)
    (angles : Bool := true) (dihedrals : Bool := true)
    (impropers : Bool := false) (pairs : Bool := true) : FFState :=
  if angles || dihedrals || impropers then
    (gNodes bonds).foldl (fun s node1 =>
      let neighbors1 := gNeighbors bonds node1
      if neighbors1.length > 1 then
        let s1 := if angles then create_angles s node1 neighbors1 else s
        let s2 := if dihedrals then
            neighbors1.foldl (fun s node2 =>
              if node2 > node1 then
                let neighbors2 := gNeighbors bonds node2
                if neighbors2.length > 1 then
                  create_dihedrals ps s node1 neighbors1 node2 neighbors2 pairs
                else s
              else s) s1
          else s1
        if impropers && neighbors1.length ≥ 3 then create_impropers s2 node1 neighbors1
        else s2
      else s) s0
  else s0

/-! ## Specification-side matcher (for the refinement claim about
`Rule._matches`) -/

/-- The atom at `i` satisfies the Boolean atom-constraint `e` (constraint
evaluation returned `True` without raising). -/
def exprSat (mol : Molecule) (rules : List Rule) (st : List TypeState)
    (e : AtomExpr) (i : Nat) : Bool :=
  match atom_expr_matches mol rules st e i with
  | .ok true => true
  | _ => false

/-- Modelled from the spec's description of the matcher (§4.2 step 5 and the
claim "matches returns true iff the atom satisfies the position's Boolean
atom-constraint and either the position has zero neighbor continuations or
there exists an injective assignment of the atom's physical bonded neighbors
to the neighbor continuations such that every pair recursively matches").
The injective assignments are exactly the `k`-permutations of the physical
neighbor list.  Same fuel discipline as `matchesExprFuel`. -/
def specMatchesFuel (mol : Molecule) (rules : List Rule) (st : List TypeState) :
    Nat → AtomExpr → Items → Nat → Bool
  | 0, _, _, _ => false
  | n + 1, e, rest, i =>
    exprSat mol rules st e i &&
      (let conts := neighbor_atom_exprs rest
       (conts.isEmpty ||
         (kperms conts.length ((getAtom mol i).bond_partners)).any (fun perm =>
           (perm.zip conts).all (fun pr =>
             specMatchesFuel mol rules st n pr.2.1 pr.2.2 pr.1))))

/-- Spec-side satisfaction of a pattern position. -/
def specMatchesExpr (mol : Molecule) (rules : List Rule) (st : List TypeState)
    (e : AtomExpr) (rest : Items) (i : Nat) : Bool :=
  specMatchesFuel mol rules st (sizeItems rest + 1) e rest i

/-- Spec-side satisfaction of a whole rule at an atom. -/
def specRuleMatches (mol : Molecule) (rules : List Rule) (st : List TypeState)
    (r : Rule) (i : Nat) : Bool :=
  specMatchesExpr mol rules st r.ast.first r.ast.rest i

/-! ## Invariants and measures of the typing engine -/

/-- Total number of whitelist entries across all atoms; the strictly
increasing measure of the fixed-point loop. -/
def sumWl (st : List TypeState) : Nat :=
  (st.map (fun ts => ts.whitelist.length)).sum

/-- Structural invariant of the engine state: every whitelist is
duplicate-free and contains only indices of actual rules. -/
def WlInv (rules : List Rule) (st : List TypeState) : Prop :=
  ∀ i, ((getTS st i).whitelist).Nodup ∧ ∀ k ∈ (getTS st i).whitelist, k < rules.length

/-- Override invariant: whenever a rule is whitelisted for an atom, all the
names it overrides are blacklisted for that atom. -/
def OverrideInv (rules : List Rule) (st : List TypeState) : Prop :=
  ∀ i k, k ∈ (getTS st i).whitelist →
    ∀ nm ∈ (rules.getD k defaultRule).overrides, nm ∈ (getTS st i).blacklist

/-! ## Concrete inputs used by counterexamples and witnesses -/

def anyExpr : AtomExpr := .atom_id .any_atom

/-- A single carbon atom with no bonds. -/
def molC : Molecule := [⟨6, []⟩]

/-- Rule `r1`, pattern `[*]`, overriding the rule named `r2`. -/
def ruleR1 : Rule := ⟨"r1", defaultAst, ["r2"]⟩

/-- Rule `r2`, pattern `[*]`, no overrides. -/
def ruleR2 : Rule := ⟨"r2", defaultAst, []⟩

def bugRules : List Rule := [ruleR1, ruleR2]

/-- A single oxygen atom with no bonds. -/
def molO : Molecule := [⟨8, []⟩]

/-- Rule matching an oxygen atom (`[#8]`). -/
def ruleO : Rule := ⟨"ox", ⟨.atom_id (.atomic_num 8), none, .nil⟩, []⟩

/-- The position `[*][*]`: current constraint `*` followed by one more
chain atom, i.e. one neighbor continuation. -/
def restOneCont : Items := .atom anyExpr none .nil

/-- A rule with pattern `[*]` (single atom, no continuations). -/
def ruleStar : Rule := ⟨"star", defaultAst, []⟩

/-- 5-atom molecule for the C3 counterexample: atom 0 is bonded to atoms 1
and 2; atom 1 has no other neighbor; atom 2 is additionally bonded to atoms
3 and 4. -/
def mol5 : Molecule :=
  [⟨6, [1, 2]⟩, ⟨6, [0]⟩, ⟨6, [0, 3, 4]⟩, ⟨6, [2]⟩, ⟨6, [2]⟩]

/-- The pattern `[*][*]([*])[*]`: the second atom has two neighbor
continuations (one branch and one trailing branch). -/
def ast5 : SmartsAst :=
  ⟨anyExpr, none,
   .atom anyExpr none (.branch anyExpr none .nil (.branch anyExpr none .nil .nil))⟩

def rule5 : Rule := ⟨"star4", ast5, []⟩

/-- The rule pair of the C4-style unsupported features: `[R5]` and
`[$([*])]`. -/
def ruleRing : Rule := ⟨"ring5", ⟨.atom_id (.ring_size 5), none, .nil⟩, []⟩

def ruleSub : Rule := ⟨"subpat", ⟨.atom_id (.matches_string anyExpr none .nil), none, .nil⟩, []⟩

/-! ## Claim C1 -/

/-- C1 (code bug): the claim says a rule whose name entered an atom's
blacklist is never subsequently added to that atom's whitelist.  The code's
guard `rule not in atom.blacklist` compares the `Rule` object against the
name strings stored in the blacklist and therefore never excludes anything.
Concretely, with rules `r1` (pattern `[*]`, overriding `r2`) and `r2`
(pattern `[*]`) on a single carbon atom: processing `r1` alone already puts
the name `r2` into the blacklist while rule index 1 (`r2`) is not yet
whitelisted, and the finished run nevertheless has index 1 in the whitelist
with `r2` still blacklisted. -/
theorem find_atomtypes_blacklisted_rule_still_whitelisted :
    applyRules molC bugRules 0 [(0, ruleR1)] [emptyTS] false
        = .ok ([⟨[0], ["r2"]⟩], true)
      ∧ find_atomtypes molC bugRules [] = .ok (some [⟨[0, 1], ["r2"]⟩])
      ∧ ruleR2.name = "r2" :=
  ⟨rfl, rfl, rfl⟩

/-! ## Claim C2 -/

/-- C2 counterexample: at a position whose atom-constraint is satisfied but
whose physical neighbor count (0) is smaller than the continuation count
(1), `matches` raises `AssertionError` instead of returning a non-match. -/
theorem matches_insufficient_neighbors_cex :
    atom_expr_matches molC [] [] anyExpr 0 = .ok true
      ∧ (getAtom molC 0).bond_partners.length < (neighbor_atom_exprs restOneCont).length
      ∧ matchesExpr molC [] [] anyExpr restOneCont 0 = .error .assertionFailed :=
  ⟨rfl, by decide, rfl⟩

/-- C2 amended: for every atom and pattern position whose atom-constraint is
satisfied but whose count of physical bonded neighbors is strictly smaller
than the count of neighbor continuations demanded by the pattern, `matches`
raises `AssertionError` (the `assert` on neighbor counts fails); the failure
propagates to the caller and is not treated as a non-match. -/
theorem matches_insufficient_neighbors_asserts :
    ∀ (mol : Molecule) (rules : List Rule) (st : List TypeState) (e : AtomExpr)
      (rest : Items) (i : Nat),
    atom_expr_matches mol rules st e i = .ok true →
    (getAtom mol i).bond_partners.length < (neighbor_atom_exprs rest).length →
    matchesExpr mol rules st e rest i = .error .assertionFailed := by
  intro mol rules st e rest i h1 h2
  have hne : (neighbor_atom_exprs rest).isEmpty = false := by
    cases hl : neighbor_atom_exprs rest with
    | nil => rw [hl] at h2; simp at h2
    | cons a l => rfl
  simp [matchesExpr, matchesExprFuel, h1, hne, h2]

/-- Witness for the amended C2 theorem at the concrete input of the
counterexample. -/
theorem matches_insufficient_neighbors_asserts_witness :
    atom_expr_matches molC [] [] anyExpr 1 = .ok true
      ∧ (getAtom molC 1).bond_partners.length < (neighbor_atom_exprs restOneCont).length
      ∧ matchesExpr molC [] [] anyExpr restOneCont 1 = .error .assertionFailed :=
  ⟨rfl, by decide,
    matches_insufficient_neighbors_asserts molC [] [] anyExpr restOneCont 1 rfl (by decide)⟩

/-! ## Claim C3 -/

/-- If the pairwise scan of one match set returns without raising, its
Boolean result is the conjunction of the pointwise results. -/
lemma scanPairs_agree {α : Type} (F : α → Except MatchError Bool) (G : α → Bool) :
    ∀ (l : List α), (∀ x ∈ l, ∀ c, F x = .ok c → G x = c) →
    ∀ c, scanPairs (l.map F) = .ok c → l.all G = c := by
  intro l
  induction l with
  | nil =>
    intro _ c h
    simp only [List.map_nil, scanPairs, Except.ok.injEq] at h
    simp [← h]
  | cons x xs ih =>
    intro hx c h
    rw [List.map_cons] at h
    cases hF : F x with
    | error e => rw [hF] at h; exact absurd h (by simp [scanPairs])
    | ok cc =>
      rw [hF] at h
      have hGx : G x = cc := hx x (by simp) cc hF
      cases cc with
      | false =>
        simp only [scanPairs, Except.ok.injEq] at h
        simp [hGx, ← h]
      | true =>
        have h' : scanPairs (xs.map F) = .ok c := h
        have := ih (fun y hy c hyc => hx y (by simp [hy]) c hyc) c h'
        simp [hGx, this]

/-- If the scan over the match sets returns without raising, its Boolean
result is the disjunction of the per-set results. -/
lemma scanPerms_agree {α : Type} (F : α → Except MatchError Bool) (G : α → Bool) :
    ∀ (l : List α), (∀ x ∈ l, ∀ c, F x = .ok c → G x = c) →
    ∀ c, scanPerms (l.map F) = .ok c → l.any G = c := by
  intro l
  induction l with
  | nil =>
    intro _ c h
    simp only [List.map_nil, scanPerms, Except.ok.injEq] at h
    simp [← h]
  | cons x xs ih =>
    intro hx c h
    rw [List.map_cons] at h
    cases hF : F x with
    | error e => rw [hF] at h; exact absurd h (by simp [scanPerms])
    | ok cc =>
      rw [hF] at h
      have hGx : G x = cc := hx x (by simp) cc hF
      cases cc with
      | true =>
        simp only [scanPerms, Except.ok.injEq] at h
        simp [hGx, ← h]
      | false =>
        have h' : scanPerms (xs.map F) = .ok c := h
        have := ih (fun y hy c hyc => hx y (by simp [hy]) c hyc) c h'
        simp [hGx, this]

/-- Whenever the source matcher returns without raising, its Boolean result
agrees with the spec-side matcher at the same fuel. -/
lemma matchesFuel_spec_agree (mol : Molecule) (rules : List Rule) (st : List TypeState) :
    ∀ (n : Nat) (e : AtomExpr) (rest : Items) (i : Nat) (b : Bool),
      matchesExprFuel mol rules st n e rest i = .ok b →
      specMatchesFuel mol rules st n e rest i = b := by
  intro n
  induction n with
  | zero =>
    intro e rest i b h
    exact absurd h (by simp [matchesExprFuel])
  | succ n ih =>
    intro e rest i b h
    rw [matchesExprFuel] at h
    rw [specMatchesFuel]
    cases hA : atom_expr_matches mol rules st e i with
    | error err => rw [hA] at h; exact absurd h (by simp)
    | ok bb =>
      rw [hA] at h
      have hsat : exprSat mol rules st e i = bb := by
        cases bb <;> simp [exprSat, hA]
      cases bb with
      | false =>
        simp only [Except.ok.injEq] at h
        simp [hsat, ← h]
      | true =>
        by_cases hE : (neighbor_atom_exprs rest).isEmpty = true
        · simp only [hE, if_true] at h
          simp only [Except.ok.injEq] at h
          simp [hsat, hE, ← h]
        · have hE' : (neighbor_atom_exprs rest).isEmpty = false := by
            cases hx : (neighbor_atom_exprs rest).isEmpty
            · rfl
            · exact absurd hx hE
          simp only [hE', Bool.false_eq_true, if_false] at h
          by_cases hL : ((getAtom mol i).bond_partners).length < (neighbor_atom_exprs rest).length
          · rw [if_pos hL] at h
            exact absurd h (by simp)
          · rw [if_neg hL] at h
            have hmain := scanPerms_agree
              (fun perm => scanPairs ((perm.zip (neighbor_atom_exprs rest)).map
                 (fun pr => matchesExprFuel mol rules st n pr.2.1 pr.2.2 pr.1)))
              (fun perm => (perm.zip (neighbor_atom_exprs rest)).all
                 (fun pr => specMatchesFuel mol rules st n pr.2.1 pr.2.2 pr.1))
              (kperms (neighbor_atom_exprs rest).length (getAtom mol i).bond_partners)
              (fun perm _ c hperm =>
                 scanPairs_agree _ _ (perm.zip (neighbor_atom_exprs rest))
                   (fun pr _ cc hpr => ih pr.2.1 pr.2.2 pr.1 cc hpr) c hperm)
              b h
            simp [hsat, hE', hmain]

/-- C3 counterexample: for the pattern `[*][*]([*])[*]` on the 5-atom
molecule `mol5`, the matcher raises `AssertionError` (an earlier
permutation descends into atom 1, which has too few neighbors) although a
later injective assignment — through atom 2 — satisfies the spec-side
condition.  Hence "returns true iff the spec condition holds" fails as
stated: the right side holds, the left does not. -/
theorem matches_spec_iff_cex :
    ¬ ((Rule.matches mol5 [] [] rule5 0 = .ok true)
        ↔ (specRuleMatches mol5 [] [] rule5 0 = true)) := by
  intro hiff
  have h1 : Rule.matches mol5 [] [] rule5 0 = .error .assertionFailed := rfl
  have h2 : specRuleMatches mol5 [] [] rule5 0 = true := rfl
  exact Except.noConfusion (h1.symm.trans (hiff.mpr h2))

/-- C3 amended: *whenever `matches` returns without raising*, it returns
true iff the atom satisfies the position's Boolean atom-constraint and
either the position has zero neighbor continuations or some injective
assignment of the atom's physical neighbors to the continuations makes
every pair recursively match (the spec-side matcher). -/
theorem matches_true_iff_spec :
    ∀ (mol : Molecule) (rules : List Rule) (st : List TypeState) (r : Rule)
      (i : Nat) (b : Bool),
      Rule.matches mol rules st r i = .ok b →
      (b = true ↔ specRuleMatches mol rules st r i = true) := by
  intro mol rules st r i b h
  have hagree := matchesFuel_spec_agree mol rules st (sizeItems r.ast.rest + 1)
    r.ast.first r.ast.rest i b h
  rw [specRuleMatches, specMatchesExpr]
  constructor
  · intro hb; rw [hagree, hb]
  · intro hs; rw [hagree] at hs; exact hs

/-- Witness for the amended C3 theorem: a single-atom pattern on a lone
carbon atom returns true, and the spec-side condition holds. -/
theorem matches_true_iff_spec_witness :
    Rule.matches molC [] [] ruleStar 0 = .ok true
      ∧ (true = true ↔ specRuleMatches molC [] [] ruleStar 0 = true) :=
  ⟨rfl, matches_true_iff_spec molC [] [] ruleStar 0 true rfl⟩

/-! ## Claim C4 -/

/-- C4: evaluating a pattern whose constraint reaches a `RingSize` primitive
(the pattern `[R5]`) or a `SubPattern` primitive raises the
unsupported-feature error (`NotImplementedError`), for every molecule,
rule list, typing state and atom; the error propagates out of
`Rule.matches` and is never a silent non-match.  (The pattern itself is
representable — parsing succeeds; rejection happens at match time.) -/
theorem matches_unsupported_feature_raises :
    ∀ (mol : Molecule) (rules : List Rule) (st : List TypeState) (i : Nat),
      Rule.matches mol rules st ruleRing i = .error (.notImplemented "ring_size")
        ∧ Rule.matches mol rules st ruleSub i = .error (.notImplemented "matches_string") :=
  fun _ _ _ _ => ⟨rfl, rfl⟩

/-! ## Claim C5 -/

/-- C5: running the typing engine twice on the same atoms and rules yields
identical per-atom whitelists and blacklists — the engine resets every
atom's whitelist and blacklist at the start of a run, so the annotations an
atom carries on entry (here: the output of the first run) do not influence
the result. -/
theorem find_atomtypes_idempotent :
    ∀ (mol : Molecule) (rules : List Rule) (stIn st' : List TypeState),
      find_atomtypes mol rules stIn = .ok (some st') →
      find_atomtypes mol rules st' = .ok (some st') :=
  fun _ _ _ _ h => h

/-- Witness: a concrete second run reproduces the first run's output. -/
theorem find_atomtypes_idempotent_witness :
    find_atomtypes molO [ruleO] [] = .ok (some [⟨[0], []⟩])
      ∧ find_atomtypes molO [ruleO] [⟨[0], []⟩] = .ok (some [⟨[0], []⟩]) :=
  ⟨rfl, find_atomtypes_idempotent molO [ruleO] [] [⟨[0], []⟩] rfl⟩

/-! ## State-manipulation lemmas for the typing engine -/

lemma getTS_nil (j : Nat) : getTS [] j = emptyTS := by
  cases j <;> rfl

lemma getTS_cons_succ (x : TypeState) (xs : List TypeState) (j : Nat) :
    getTS (x :: xs) (j + 1) = getTS xs j := rfl

lemma getTS_setTS (st : List TypeState) (i : Nat) (ts : TypeState) (j : Nat) :
    getTS (setTS st i ts) j = if i < st.length ∧ j = i then ts else getTS st j := by
  induction st generalizing i j with
  | nil => simp [setTS, getTS]
  | cons x xs ih =>
    cases i with
    | zero =>
      cases j with
      | zero => simp [setTS, getTS]
      | succ jj => simp [setTS, getTS]
    | succ ii =>
      cases j with
      | zero => simp [setTS, getTS]
      | succ jj =>
        have h := ih ii jj
        simp only [setTS, List.set] at h ⊢
        rw [getTS_cons_succ, getTS_cons_succ, h]
        congr 1
        simp [Nat.succ_lt_succ_iff]

lemma setTS_length (st : List TypeState) (i : Nat) (ts : TypeState) :
    (setTS st i ts).length = st.length := by
  simp [setTS]

lemma wlAdd_mem_of_mem {k' k : Nat} {l : List Nat} (h : k' ∈ l) : k' ∈ wlAdd k l := by
  unfold wlAdd
  split
  · exact h
  · exact List.mem_append_left _ h

lemma wlAdd_mem_iff {k' k : Nat} {l : List Nat} (hk : k ∉ l) :
    k' ∈ wlAdd k l ↔ k' ∈ l ∨ k' = k := by
  unfold wlAdd
  rw [if_neg hk]
  simp

lemma wlAdd_nodup {k : Nat} {l : List Nat} (h : l.Nodup) (hk : k ∉ l) :
    (wlAdd k l).Nodup := by
  unfold wlAdd
  rw [if_neg hk]
  simp [List.nodup_append, h, hk]

lemma wlAdd_lt {k n : Nat} {l : List Nat} (hk : k < n) (h : ∀ x ∈ l, x < n) :
    ∀ x ∈ wlAdd k l, x < n := by
  intro x hx
  unfold wlAdd at hx
  split at hx
  · exact h x hx
  · rcases List.mem_append.mp hx with h1 | h1
    · exact h x h1
    · rw [List.mem_singleton.mp h1]; exact hk

lemma wlAdd_length {k : Nat} {l : List Nat} (hk : k ∉ l) :
    (wlAdd k l).length = l.length + 1 := by
  unfold wlAdd
  rw [if_neg hk]
  simp

lemma blUnion_subset_left : ∀ (ov bl : List String), bl ⊆ blUnion bl ov := by
  intro ov
  induction ov with
  | nil => intro bl; exact fun x h => h
  | cons s ov ih =>
    intro bl
    have h0 : blUnion bl (s :: ov) = blUnion (if s ∈ bl then bl else bl ++ [s]) ov := rfl
    rw [h0]
    refine List.Subset.trans ?_ (ih _)
    split
    · exact fun x h => h
    · exact List.subset_append_left _ _

lemma blUnion_subset_right : ∀ (ov bl : List String), ov ⊆ blUnion bl ov := by
  intro ov
  induction ov with
  | nil => intro bl; exact fun x h => absurd h (List.not_mem_nil x)
  | cons s ov ih =>
    intro bl x hx
    have h0 : blUnion bl (s :: ov) = blUnion (if s ∈ bl then bl else bl ++ [s]) ov := rfl
    rw [h0]
    rcases List.mem_cons.mp hx with h1 | h1
    · subst h1
      refine blUnion_subset_left ov _ ?_
      split
      · assumption
      · exact List.mem_append_right _ (List.mem_singleton.mpr rfl)
    · exact ih _ h1

lemma ruleObjInBlacklist_false (bl : List String) : ruleObjInBlacklist bl = false := by
  induction bl with
  | nil => rfl
  | cons s l ih => simp [ruleObjInBlacklist]

lemma sumWl_cons (ts : TypeState) (st : List TypeState) :
    sumWl (ts :: st) = ts.whitelist.length + sumWl st := by
  simp [sumWl]

lemma sumWl_set (st : List TypeState) (i : Nat) (ts : TypeState) (h : i < st.length) :
    sumWl (setTS st i ts) + (getTS st i).whitelist.length
      = sumWl st + ts.whitelist.length := by
  induction st generalizing i with
  | nil => simp at h
  | cons x xs ih =>
    cases i with
    | zero =>
      have h0 : setTS (x :: xs) 0 ts = ts :: xs := rfl
      rw [h0, sumWl_cons, sumWl_cons]
      have h1 : getTS (x :: xs) 0 = x := rfl
      rw [h1]
      omega
    | succ ii =>
      have h0 : setTS (x :: xs) (ii + 1) ts = x :: setTS xs ii ts := rfl
      rw [h0, sumWl_cons, sumWl_cons, getTS_cons_succ]
      have h1 := ih ii (by simpa using h)
      omega

lemma sumWl_le (st : List TypeState) (m : Nat)
    (h : ∀ i, i < st.length → (getTS st i).whitelist.length ≤ m) :
    sumWl st ≤ st.length * m := by
  induction st with
  | nil => simp [sumWl]
  | cons x xs ih =>
    rw [sumWl_cons]
    have h0 : x.whitelist.length ≤ m := h 0 (by simp)
    have h1 : sumWl xs ≤ xs.length * m := by
      refine ih ?_
      intro i hi
      have := h (i + 1) (by simpa using hi)
      rwa [getTS_cons_succ] at this
    have : (x :: xs).length * m = xs.length * m + m := by
      simp [Nat.succ_mul]
    omega

lemma nodup_lt_length {l : List Nat} {n : Nat} (h1 : l.Nodup) (h2 : ∀ k ∈ l, k < n) :
    l.length ≤ n := by
  have hcard : l.toFinset.card = l.length := List.toFinset_card_of_nodup h1
  have hsub : l.toFinset ⊆ Finset.range n := by
    intro x hx
    exact Finset.mem_range.mpr (h2 x (List.mem_toFinset.mp hx))
  have := Finset.card_le_card hsub
  rw [Finset.card_range, hcard] at this
  exact this

lemma withIdx_mem {α : Type} :
    ∀ (l : List α) (n k : Nat) (x : α), (k, x) ∈ withIdx n l →
      ∃ j, k = n + j ∧ j < l.length ∧ ∀ d, l.getD j d = x := by
  intro l
  induction l with
  | nil => intro n k x h; simp [withIdx] at h
  | cons y ys ih =>
    intro n k x h
    rcases List.mem_cons.mp h with h1 | h1
    · refine ⟨0, ?_, by simp, ?_⟩
      · simpa using (Prod.mk.injEq _ _ _ _ ▸ h1).1
      · intro d
        have := (Prod.mk.injEq _ _ _ _ ▸ h1).2
        simp [this]
    · obtain ⟨j, hj1, hj2, hj3⟩ := ih (n + 1) k x h1
      refine ⟨j + 1, by omega, by simpa using hj2, ?_⟩
      intro d
      simpa using hj3 d

lemma withIdx_zero_lt (rules : List Rule) (p : Nat × Rule)
    (h : p ∈ withIdx 0 rules) : p.1 < rules.length := by
  obtain ⟨j, hj1, hj2, _⟩ := withIdx_mem rules 0 p.1 p.2 h
  omega

lemma withIdx_zero_getD (rules : List Rule) (p : Nat × Rule)
    (h : p ∈ withIdx 0 rules) : rules.getD p.1 defaultRule = p.2 := by
  obtain ⟨j, hj1, _, hj3⟩ := withIdx_mem rules 0 p.1 p.2 h
  have : p.1 = j := by omega
  rw [this]
  exact hj3 defaultRule

lemma getTS_replicate (n i : Nat) : getTS (List.replicate n emptyTS) i = emptyTS := by
  induction n generalizing i with
  | zero => exact getTS_nil i
  | succ m ih =>
    cases i with
    | zero => rfl
    | succ ii => simpa [List.replicate, getTS_cons_succ] using ih ii

/-! ## Engine-pass lemmas -/

/-- Core properties of the inner rule loop: the state keeps its length,
whitelists and blacklists only grow, the whitelist measure is monotone, and
a pass that newly sets `found_something` has strictly grown the measure
(provided the atom index is in range). -/
lemma applyRules_props (mol : Molecule) (rules : List Rule) (i : Nat) :
    ∀ (l : List (Nat × Rule)) (st : List TypeState) (found : Bool)
      (st' : List TypeState) (f' : Bool),
      applyRules mol rules i l st found = .ok (st', f') →
      st'.length = st.length
        ∧ (∀ j, (getTS st j).whitelist ⊆ (getTS st' j).whitelist
              ∧ (getTS st j).blacklist ⊆ (getTS st' j).blacklist)
        ∧ sumWl st ≤ sumWl st'
        ∧ (f' = found ∨ (f' = true ∧ (i < st.length → sumWl st < sumWl st'))) := by
  intro l
  induction l with
  | nil =>
    intro st found st' f' h
    rw [applyRules] at h
    obtain ⟨h1, h2⟩ := Prod.mk.injEq _ _ _ _ ▸ (Except.ok.injEq _ _ ▸ h)
    subst h1; subst h2
    exact ⟨rfl, fun j => ⟨fun x hx => hx, fun x hx => hx⟩, le_refl _, Or.inl rfl⟩
  | cons p l ih =>
    obtain ⟨k, r⟩ := p
    intro st found st' f' h
    rw [applyRules] at h
    by_cases hguard :
        k ∈ (getTS st i).whitelist ∨ ruleObjInBlacklist (getTS st i).blacklist = true
    · rw [if_pos hguard] at h
      exact ih st found st' f' h
    · rw [if_neg hguard] at h
      cases hm : Rule.matches mol rules st r i with
      | error e => rw [hm] at h; exact absurd h (by simp)
      | ok bb =>
        rw [hm] at h
        cases bb with
        | false => exact ih st found st' f' h
        | true =>
          have hknotin : k ∉ (getTS st i).whitelist := fun hk => hguard (Or.inl hk)
          set ts := getTS st i with hts
          set st2 := setTS st i
            ⟨wlAdd k ts.whitelist, blUnion ts.blacklist r.overrides⟩ with hst2
          obtain ⟨hlen, hmono, hle, hf⟩ := ih st2 true st' f' h
          have hlen2 : st2.length = st.length := setTS_length st i _
          have hmono2 : ∀ j, (getTS st j).whitelist ⊆ (getTS st2 j).whitelist
              ∧ (getTS st j).blacklist ⊆ (getTS st2 j).blacklist := by
            intro j
            rw [hst2, getTS_setTS]
            split
            · rename_i hcond
              rw [hcond.2]
              constructor
              · intro x hx
                exact wlAdd_mem_of_mem hx
              · intro x hx
                exact blUnion_subset_left _ _ hx
            · exact ⟨fun x hx => hx, fun x hx => hx⟩
          have hle2 : sumWl st ≤ sumWl st2 ∧ (i < st.length → sumWl st < sumWl st2) := by
            by_cases hi : i < st.length
            · have hs := sumWl_set st i
                ⟨wlAdd k ts.whitelist, blUnion ts.blacklist r.overrides⟩ hi
              have hw : (wlAdd k ts.whitelist).length = ts.whitelist.length + 1 :=
                wlAdd_length hknotin
              rw [← hst2, ← hts] at hs
              simp only at hs
              constructor
              · omega
              · intro _; omega
            · have : st2 = st := by
                rw [hst2, setTS, List.set_eq_of_length_le (by omega)]
              rw [this]
              exact ⟨le_refl _, fun hc => absurd hc hi⟩
          refine ⟨hlen.trans hlen2, ?_, hle2.1.trans hle, ?_⟩
          · intro j
            exact ⟨List.Subset.trans (hmono2 j).1 (hmono j).1,
                   List.Subset.trans (hmono2 j).2 (hmono j).2⟩
          · refine Or.inr ⟨?_, ?_⟩
            · rcases hf with h1 | h1
              · exact h1
              · exact h1.1
            · intro hi
              exact Nat.lt_of_lt_of_le (hle2.2 hi) hle

/-- The rule loop preserves the structural whitelist invariant when every
processed pair's index is an index of an actual rule. -/
lemma applyRules_wlInv (mol : Molecule) (rules : List Rule) (i : Nat) :
    ∀ (l : List (Nat × Rule)) (st : List TypeState) (found : Bool)
      (st' : List TypeState) (f' : Bool),
      (∀ p ∈ l, (p : Nat × Rule).1 < rules.length) →
      WlInv rules st →
      applyRules mol rules i l st found = .ok (st', f') → WlInv rules st' := by
  intro l
  induction l with
  | nil =>
    intro st found st' f' _ hInv h
    rw [applyRules] at h
    obtain ⟨h1, _⟩ := Prod.mk.injEq _ _ _ _ ▸ (Except.ok.injEq _ _ ▸ h)
    subst h1
    exact hInv
  | cons p l ih =>
    obtain ⟨k, r⟩ := p
    intro st found st' f' hl hInv h
    rw [applyRules] at h
    by_cases hguard :
        k ∈ (getTS st i).whitelist ∨ ruleObjInBlacklist (getTS st i).blacklist = true
    · rw [if_pos hguard] at h
      exact ih st found st' f' (fun q hq => hl q (by simp [hq])) hInv h
    · rw [if_neg hguard] at h
      cases hm : Rule.matches mol rules st r i with
      | error e => rw [hm] at h; exact absurd h (by simp)
      | ok bb =>
        rw [hm] at h
        cases bb with
        | false => exact ih st found st' f' (fun q hq => hl q (by simp [hq])) hInv h
        | true =>
          have hknotin : k ∉ (getTS st i).whitelist := fun hk => hguard (Or.inl hk)
          have hk : k < rules.length := hl (k, r) (by simp)
          refine ih _ true st' f' (fun q hq => hl q (by simp [hq])) ?_ h
          intro j
          rw [getTS_setTS]
          split
          · exact ⟨wlAdd_nodup (hInv i).1 hknotin, wlAdd_lt hk (hInv i).2⟩
          · exact hInv j

/-- The rule loop preserves the override invariant when every processed
pair is the rule stored at its index. -/
lemma applyRules_ovInv (mol : Molecule) (rules : List Rule) (i : Nat) :
    ∀ (l : List (Nat × Rule)) (st : List TypeState) (found : Bool)
      (st' : List TypeState) (f' : Bool),
      (∀ p ∈ l, rules.getD (p : Nat × Rule).1 defaultRule = p.2) →
      OverrideInv rules st →
      applyRules mol rules i l st found = .ok (st', f') → OverrideInv rules st' := by
  intro l
  induction l with
  | nil =>
    intro st found st' f' _ hInv h
    rw [applyRules] at h
    obtain ⟨h1, _⟩ := Prod.mk.injEq _ _ _ _ ▸ (Except.ok.injEq _ _ ▸ h)
    subst h1
    exact hInv
  | cons p l ih =>
    obtain ⟨k, r⟩ := p
    intro st found st' f' hl hInv h
    rw [applyRules] at h
    by_cases hguard :
        k ∈ (getTS st i).whitelist ∨ ruleObjInBlacklist (getTS st i).blacklist = true
    · rw [if_pos hguard] at h
      exact ih st found st' f' (fun q hq => hl q (by simp [hq])) hInv h
    · rw [if_neg hguard] at h
      cases hm : Rule.matches mol rules st r i with
      | error e => rw [hm] at h; exact absurd h (by simp)
      | ok bb =>
        rw [hm] at h
        cases bb with
        | false => exact ih st found st' f' (fun q hq => hl q (by simp [hq])) hInv h
        | true =>
          have hknotin : k ∉ (getTS st i).whitelist := fun hk => hguard (Or.inl hk)
          have hkr : rules.getD k defaultRule = r := hl (k, r) (by simp)
          refine ih _ true st' f' (fun q hq => hl q (by simp [hq])) ?_ h
          intro j k' hk' nm hnm
          rw [getTS_setTS] at hk' ⊢
          split at hk'
          · rename_i hcond
            rw [if_pos hcond]
            simp only at hk' ⊢
            rcases (wlAdd_mem_iff hknotin).mp hk' with h1 | h1
            · exact blUnion_subset_left _ _ (hInv i k' h1 nm hnm)
            · subst h1
              rw [hkr] at hnm
              exact blUnion_subset_right _ _ hnm
          · rename_i hcond
            rw [if_neg hcond]
            exact hInv j k' hk' nm hnm

/-- Properties of the atom loop, composed from `applyRules_props`. -/
lemma applyAtoms_props (mol : Molecule) (rules : List Rule) :
    ∀ (is' : List Nat) (st : List TypeState) (found : Bool)
      (st' : List TypeState) (f' : Bool),
      applyAtoms mol rules is' st found = .ok (st', f') →
      st'.length = st.length
        ∧ (∀ j, (getTS st j).whitelist ⊆ (getTS st' j).whitelist
              ∧ (getTS st j).blacklist ⊆ (getTS st' j).blacklist)
        ∧ sumWl st ≤ sumWl st'
        ∧ (f' = found ∨ (f' = true ∧ ((∀ i ∈ is', i < st.length) → sumWl st < sumWl st'))) := by
  intro is'
  induction is' with
  | nil =>
    intro st found st' f' h
    rw [applyAtoms] at h
    obtain ⟨h1, h2⟩ := Prod.mk.injEq _ _ _ _ ▸ (Except.ok.injEq _ _ ▸ h)
    subst h1; subst h2
    exact ⟨rfl, fun j => ⟨fun x hx => hx, fun x hx => hx⟩, le_refl _, Or.inl rfl⟩
  | cons i is' ih =>
    intro st found st' f' h
    rw [applyAtoms] at h
    cases hr : applyRules mol rules i (withIdx 0 rules) st found with
    | error e => rw [hr] at h; exact absurd h (by simp)
    | ok p =>
      obtain ⟨st1, f1⟩ := p
      rw [hr] at h
      obtain ⟨hlen1, hmono1, hle1, hf1⟩ := applyRules_props mol rules i _ st found st1 f1 hr
      obtain ⟨hlen2, hmono2, hle2, hf2⟩ := ih st1 f1 st' f' h
      refine ⟨hlen2.trans hlen1, ?_, hle1.trans hle2, ?_⟩
      · intro j
        exact ⟨List.Subset.trans (hmono1 j).1 (hmono2 j).1,
               List.Subset.trans (hmono1 j).2 (hmono2 j).2⟩
      · rcases hf2 with h2 | h2
        · subst h2
          rcases hf1 with h1 | h1
          · exact Or.inl h1
          · refine Or.inr ⟨h1.1, fun hbound => ?_⟩
            exact Nat.lt_of_lt_of_le (h1.2 (hbound i (by simp))) hle2
        · refine Or.inr ⟨h2.1, fun hbound => ?_⟩
          refine Nat.lt_of_le_of_lt hle1 (h2.2 ?_)
          intro x hx
          rw [hlen1]
          exact hbound x (by simp [hx])

/-- One pass keeps the state length, only grows the per-atom sets, and
strictly grows the whitelist measure when it reports progress. -/
lemma onePass_props (mol : Molecule) (rules : List Rule) (st st' : List TypeState)
    (f' : Bool) (h : onePass mol rules st = .ok (st', f')) :
    st'.length = st.length
      ∧ (∀ j, (getTS st j).whitelist ⊆ (getTS st' j).whitelist
            ∧ (getTS st j).blacklist ⊆ (getTS st' j).blacklist)
      ∧ sumWl st ≤ sumWl st'
      ∧ (st.length = mol.length → f' = true → sumWl st < sumWl st') := by
  obtain ⟨h1, h2, h3, h4⟩ := applyAtoms_props mol rules (List.range mol.length) st false st' f' h
  refine ⟨h1, h2, h3, ?_⟩
  intro hlen hf
  rcases h4 with hc | hc
  · rw [hf] at hc; exact absurd hc.symm (by simp)
  · refine hc.2 ?_
    intro i hi
    rw [hlen]
    exact List.mem_range.mp hi

/-- The atom loop preserves the structural whitelist invariant. -/
lemma applyAtoms_wlInv (mol : Molecule) (rules : List Rule) :
    ∀ (is' : List Nat) (st : List TypeState) (found : Bool)
      (st' : List TypeState) (f' : Bool),
      WlInv rules st →
      applyAtoms mol rules is' st found = .ok (st', f') → WlInv rules st' := by
  intro is'
  induction is' with
  | nil =>
    intro st found st' f' hInv h
    rw [applyAtoms] at h
    obtain ⟨h1, _⟩ := Prod.mk.injEq _ _ _ _ ▸ (Except.ok.injEq _ _ ▸ h)
    subst h1
    exact hInv
  | cons i is' ih =>
    intro st found st' f' hInv h
    rw [applyAtoms] at h
    cases hr : applyRules mol rules i (withIdx 0 rules) st found with
    | error e => rw [hr] at h; exact absurd h (by simp)
    | ok p =>
      obtain ⟨st1, f1⟩ := p
      rw [hr] at h
      exact ih st1 f1 st' f'
        (applyRules_wlInv mol rules i _ st found st1 f1
          (fun q hq => withIdx_zero_lt rules q hq) hInv hr) h

/-- The atom loop preserves the override invariant. -/
lemma applyAtoms_ovInv (mol : Molecule) (rules : List Rule) :
    ∀ (is' : List Nat) (st : List TypeState) (found : Bool)
      (st' : List TypeState) (f' : Bool),
      OverrideInv rules st →
      applyAtoms mol rules is' st found = .ok (st', f') → OverrideInv rules st' := by
  intro is'
  induction is' with
  | nil =>
    intro st found st' f' hInv h
    rw [applyAtoms] at h
    obtain ⟨h1, _⟩ := Prod.mk.injEq _ _ _ _ ▸ (Except.ok.injEq _ _ ▸ h)
    subst h1
    exact hInv
  | cons i is' ih =>
    intro st found st' f' hInv h
    rw [applyAtoms] at h
    cases hr : applyRules mol rules i (withIdx 0 rules) st found with
    | error e => rw [hr] at h; exact absurd h (by simp)
    | ok p =>
      obtain ⟨st1, f1⟩ := p
      rw [hr] at h
      exact ih st1 f1 st' f'
        (applyRules_ovInv mol rules i _ st found st1 f1
          (fun q hq => withIdx_zero_getD rules q hq) hInv hr) h

/-- The pass loop preserves the override invariant down to the returned
fixed point. -/
lemma runPasses_ovInv (mol : Molecule) (rules : List Rule) :
    ∀ (fuel : Nat) (st st' : List TypeState),
      OverrideInv rules st →
      runPasses mol rules fuel st = .ok (some st') → OverrideInv rules st' := by
  intro fuel
  induction fuel with
  | zero =>
    intro st st' _ h
    rw [runPasses] at h
    exact absurd (Except.ok.injEq _ _ ▸ h) (by simp)
  | succ n ih =>
    intro st st' hInv h
    rw [runPasses] at h
    cases hp : onePass mol rules st with
    | error e => rw [hp] at h; exact absurd h (by simp)
    | ok p =>
      obtain ⟨st1, found⟩ := p
      rw [hp] at h
      have hInv1 : OverrideInv rules st1 :=
        applyAtoms_ovInv mol rules (List.range mol.length) st false st1 found hInv hp
      cases found with
      | true => exact ih st1 st' hInv1 h
      | false =>
        simp only [if_neg] at h
        have := Except.ok.injEq _ _ ▸ h
        have h2 : st1 = st' := Option.some.injEq _ _ ▸ this
        exact h2 ▸ hInv1

/-- The pass budget `|atoms| * |rules| + 1` is never exhausted: whenever the
whitelist measure plus the remaining budget exceeds the measure's bound, the
loop reaches an erroring or unproductive pass before running out. -/
lemma runPasses_not_none (mol : Molecule) (rules : List Rule) :
    ∀ (fuel : Nat) (st : List TypeState),
      WlInv rules st → st.length = mol.length →
      mol.length * rules.length < sumWl st + fuel →
      runPasses mol rules fuel st ≠ .ok none := by
  intro fuel
  induction fuel with
  | zero =>
    intro st hInv hlen hbound
    exfalso
    have hb : sumWl st ≤ st.length * rules.length := by
      refine sumWl_le st rules.length ?_
      intro i _
      exact nodup_lt_length (hInv i).1 (hInv i).2
    rw [hlen] at hb
    omega
  | succ n ih =>
    intro st hInv hlen hbound
    rw [runPasses]
    cases hp : onePass mol rules st with
    | error e => simp
    | ok p =>
      obtain ⟨st1, found⟩ := p
      obtain ⟨hlen1, _, hle1, hstrict⟩ := onePass_props mol rules st st1 found hp
      have hInv1 : WlInv rules st1 :=
        applyAtoms_wlInv mol rules (List.range mol.length) st false st1 found hInv hp
      cases found with
      | false => simp
      | true =>
        simp only [if_pos]
        refine ih st1 hInv1 (hlen1.trans hlen) ?_
        have := hstrict hlen rfl
        omega

/-! ## Claim C6 -/

/-- C6: after the typing engine reaches its fixed point, for every atom and
every whitelisted rule, every rule name that rule overrides is in the
atom's blacklist (so for rules `r1`, `r2` with `r2.name ∈ r1.overrides`,
`r1` whitelisted implies `r2.name` blacklisted). -/
theorem find_atomtypes_override_monotonic :
    ∀ (mol : Molecule) (rules : List Rule) (stIn st' : List TypeState),
      find_atomtypes mol rules stIn = .ok (some st') →
      ∀ (i k : Nat), k ∈ (getTS st' i).whitelist →
        ∀ nm ∈ (rules.getD k defaultRule).overrides, nm ∈ (getTS st' i).blacklist := by
  intro mol rules stIn st' h
  refine runPasses_ovInv mol rules (mol.length * rules.length + 1)
    (List.replicate mol.length emptyTS) st' ?_ h
  intro i k hk
  rw [getTS_replicate] at hk
  exact absurd hk (List.not_mem_nil k)

/-- Witness for C6: in the concrete run of `molC` with `bugRules`, rule 0
(`r1`, overriding the name `r2`) is whitelisted and `r2` is blacklisted. -/
theorem find_atomtypes_override_monotonic_witness :
    "r2" ∈ (getTS [(⟨[0, 1], ["r2"]⟩ : TypeState)] 0).blacklist :=
  find_atomtypes_override_monotonic molC bugRules [] [⟨[0, 1], ["r2"]⟩] rfl 0 0
    (by decide) "r2" (by decide)

/-! ## Claim C7 -/

/-- C7: the fixed-point loop of the typing engine terminates.  Per-atom
whitelist and blacklist membership never shrinks across a pass, a pass that
sets `found_something` strictly grows the total whitelist measure, and with
the measure bounded by `|atoms| * |rules|` the loop exits (or propagates a
matcher exception) within `|atoms| * |rules| + 1` passes — `find_atomtypes`
never exhausts its pass budget. -/
theorem find_atomtypes_terminates :
    (∀ (mol : Molecule) (rules : List Rule) (st st' : List TypeState) (f : Bool),
        onePass mol rules st = .ok (st', f) →
          (∀ j, (getTS st j).whitelist ⊆ (getTS st' j).whitelist
              ∧ (getTS st j).blacklist ⊆ (getTS st' j).blacklist)
            ∧ (st.length = mol.length → f = true → sumWl st < sumWl st'))
      ∧ ∀ (mol : Molecule) (rules : List Rule) (stIn : List TypeState),
          find_atomtypes mol rules stIn ≠ .ok none := by
  constructor
  · intro mol rules st st' f h
    obtain ⟨_, h2, _, h4⟩ := onePass_props mol rules st st' f h
    exact ⟨h2, h4⟩
  · intro mol rules stIn
    refine runPasses_not_none mol rules (mol.length * rules.length + 1)
      (List.replicate mol.length emptyTS) ?_ (by simp) ?_
    · intro i
      rw [getTS_replicate]
      exact ⟨List.nodup_nil, fun k hk => absurd hk (List.not_mem_nil k)⟩
    · have : sumWl (List.replicate mol.length emptyTS) = 0 := by
        induction mol.length with
        | zero => rfl
        | succ m ih => rw [List.replicate, sumWl_cons]; simpa [emptyTS] using ih
      omega

/-- Witness for C7: the concrete productive pass on `molC` strictly grows
the whitelist measure, and the concrete run terminates within its budget. -/
theorem find_atomtypes_terminates_witness :
    sumWl [emptyTS] < sumWl [⟨[0, 1], ["r2"]⟩]
      ∧ find_atomtypes molC bugRules [] ≠ .ok none :=
  ⟨(find_atomtypes_terminates.1 molC bugRules [emptyTS] [⟨[0, 1], ["r2"]⟩] true rfl).2
      rfl rfl,
   find_atomtypes_terminates.2 molC bugRules []⟩

/-! ## Fold lemmas for the bonded-term generator -/

/-- A fold whose step preserves a projection preserves it overall. -/
lemma foldl_pres {α β : Type} (proj : FFState → β) (f : FFState → α → FFState)
    (h : ∀ s x, proj (f s x) = proj s) :
    ∀ (l : List α) (s : FFState), proj (l.foldl f s) = proj s := by
  intro l
  induction l with
  | nil => intro s; rfl
  | cons x xs ih =>
    intro s
    rw [List.foldl_cons, ih (f s x), h s x]

/-- Two folds over the same list whose steps preserve a binary relation
preserve it overall. -/
lemma foldl_rel {α : Type} {R : FFState → FFState → Prop} {f g : FFState → α → FFState}
    (h : ∀ s t x, R s t → R (f s x) (g t x)) :
    ∀ (l : List α) (s t : FFState), R s t → R (l.foldl f s) (l.foldl g t) := by
  intro l
  induction l with
  | nil => intro s t hR; exact hR
  | cons x xs ih =>
    intro s t hR
    rw [List.foldl_cons, List.foldl_cons]
    exact ih _ _ (h s t x hR)

lemma create_angles_impropers (s : FFState) (node : Nat) (nb : List Nat) :
    (create_angles s node nb).impropers = s.impropers := by
  unfold create_angles
  refine foldl_pres FFState.impropers _ ?_ _ s
  intro s p
  rfl

lemma create_angles_adjusts (s : FFState) (node : Nat) (nb : List Nat) :
    (create_angles s node nb).adjusts = s.adjusts := by
  unfold create_angles
  refine foldl_pres FFState.adjusts _ ?_ _ s
  intro s p
  rfl

lemma create_angles_dihedrals (s : FFState) (node : Nat) (nb : List Nat) :
    (create_angles s node nb).dihedrals = s.dihedrals := by
  unfold create_angles
  refine foldl_pres FFState.dihedrals _ ?_ _ s
  intro s p
  rfl

lemma create_impropers_adjusts (s : FFState) (node : Nat) (nb : List Nat) :
    (create_impropers s node nb).adjusts = s.adjusts := by
  unfold create_impropers
  refine foldl_pres FFState.adjusts _ ?_ _ s
  intro s p
  rfl

lemma create_impropers_dihedrals (s : FFState) (node : Nat) (nb : List Nat) :
    (create_impropers s node nb).dihedrals = s.dihedrals := by
  unfold create_impropers
  refine foldl_pres FFState.dihedrals _ ?_ _ s
  intro s p
  rfl

lemma create_dihedrals_impropers (ps : ParameterSet) (s : FFState) (n1 : Nat)
    (nb1 : List Nat) (n2 : Nat) (nb2 : List Nat) (pairs : Bool) :
    (create_dihedrals ps s n1 nb1 n2 nb2 pairs).impropers = s.impropers := by
  refine foldl_pres FFState.impropers _ ?_ _ s
  intro s p
  dsimp only
  cases hd : ps.dihedral_types <;> cases hr : ps.rb_torsion_types <;>
    cases hp : pairs <;> split <;> simp [hd, hr, hp]

/-! ## Claim C10 -/

/-- The per-node step of `create_forces` with the `impropers` option
disabled never touches the impropers list. -/
lemma create_forces_step_impropers (bonds : List (Nat × Nat)) (ps : ParameterSet)
    (aF dF : Bool) (pairs : Bool) (s : FFState) (node1 : Nat) :
    (let neighbors1 := gNeighbors bonds node1
     if neighbors1.length > 1 then
       let s1 := if aF then create_angles s node1 neighbors1 else s
       let s2 := if dF then
           neighbors1.foldl (fun s node2 =>
             if node2 > node1 then
               let neighbors2 := gNeighbors bonds node2
               if neighbors2.length > 1 then
                 create_dihedrals ps s node1 neighbors1 node2 neighbors2 pairs
               else s
             else s) s1
         else s1
       if false && neighbors1.length ≥ 3 then create_impropers s2 node1 neighbors1
       else s2
     else s).impropers = s.impropers := by
  dsimp only
  split
  · simp only [Bool.false_and, Bool.false_eq_true, if_false]
    have h1 : ((if aF then create_angles s node1 (gNeighbors bonds node1) else s)).impropers
        = s.impropers := by
      split
      · exact create_angles_impropers s node1 _
      · rfl
    rw [← h1]
    split
    · refine foldl_pres FFState.impropers _ ?_ _ _
      intro t node2
      dsimp only
      split
      · split
        · exact create_dihedrals_impropers ps t node1 _ node2 _ pairs
        · rfl
      · rfl
    · rfl
  · rfl

/-- C10: `create_forces` defaults to `angles=True, dihedrals=True,
impropers=False, pairs=True` (the call with all arguments defaulted — as
`apply_forcefield` makes it — equals the call with those flags), and under
the defaults no improper term is ever appended, whatever the bond graph
(degree-≥3 nodes included). -/
theorem create_forces_default_no_impropers :
    ∀ (s0 : FFState) (bonds : List (Nat × Nat)) (ps : ParameterSet),
      create_forces s0 bonds ps = create_forces s0 bonds ps true true false true
        ∧ (create_forces s0 bonds ps).impropers = s0.impropers := by
  intro s0 bonds ps
  refine ⟨rfl, ?_⟩
  rw [create_forces]
  split
  · refine foldl_pres FFState.impropers _ ?_ _ s0
    intro s node1
    exact create_forces_step_impropers bonds ps true true true s node1
  · rfl

/-! ## Claim C9 -/

/-- The pairing of `create_dihedrals` runs: with `pairs` enabled, the run
with an arbitrary parameter set appends one adjust per product pair exactly
where the run whose parameter set declares both torsion tables appends one
dihedral. -/
lemma create_dihedrals_rel (ps : ParameterSet) (n1 : Nat) (nb1 : List Nat)
    (n2 : Nat) (nb2 : List Nat) :
    ∀ (s t : FFState),
      s.adjusts = t.dihedrals.map (fun q => (q.1, q.2.2.2)) →
      (create_dihedrals ps s n1 nb1 n2 nb2 true).adjusts
        = (create_dihedrals ⟨true, true⟩ t n1 nb1 n2 nb2 true).dihedrals.map
            (fun q => (q.1, q.2.2.2)) := by
  intro s t hR
  refine foldl_rel (R := fun s t =>
      s.adjusts = t.dihedrals.map (fun q => (q.1, q.2.2.2))) ?_ _ s t hR
  intro s t p hR'
  dsimp only
  by_cases hpq : p.1 ≠ p.2
  · rw [if_pos hpq, if_pos hpq]
    cases hd : ps.dihedral_types <;> cases hr : ps.rb_torsion_types <;>
      simp [hd, hr, hR', List.map_append]
  · rw [if_neg hpq, if_neg hpq]
    exact hR'

/-- C9: with the `pairs` option enabled, the generator appends exactly one
1-4 nonbonded-exception pair `(a, b)` for every generated dihedral
`(a, node1, node2, b)`, in order, independently of which torsion tables the
active parameter set declares populated (the right-hand run records every
generated dihedral because both its tables are declared). -/
theorem adjusts_one_per_dihedral :
    ∀ (bonds : List (Nat × Nat)) (ps : ParameterSet) (aF dF iF : Bool),
      (create_forces emptyFF bonds ps aF dF iF true).adjusts
        = ((create_forces emptyFF bonds ⟨true, true⟩ aF dF iF true).dihedrals).map
            (fun q => (q.1, q.2.2.2)) := by
  intro bonds ps aF dF iF
  rw [create_forces, create_forces]
  split
  · refine foldl_rel (R := fun s t =>
        s.adjusts = t.dihedrals.map (fun q => (q.1, q.2.2.2))) ?_ _ emptyFF emptyFF rfl
    intro s t node1 hR
    dsimp only
    split
    · have h1 : ((if aF then create_angles s node1 (gNeighbors bonds node1) else s)).adjusts
          = s.adjusts := by
        split
        · exact create_angles_adjusts s node1 _
        · rfl
      have h2 : ((if aF then create_angles t node1 (gNeighbors bonds node1) else t)).dihedrals
          = t.dihedrals := by
        split
        · exact create_angles_dihedrals t node1 _
        · rfl
      have hR1 : ((if aF then create_angles s node1 (gNeighbors bonds node1) else s)).adjusts
          = ((if aF then create_angles t node1 (gNeighbors bonds node1) else t)).dihedrals.map
              (fun q => (q.1, q.2.2.2)) := by
        rw [h1, h2, hR]
      have hR2 :
          ((if dF then
              (gNeighbors bonds node1).foldl (fun s node2 =>
                if node2 > node1 then
                  if (gNeighbors bonds node2).length > 1 then
                    create_dihedrals ps s node1 (gNeighbors bonds node1) node2
                      (gNeighbors bonds node2) true
                  else s
                else s)
              (if aF then create_angles s node1 (gNeighbors bonds node1) else s)
            else (if aF then create_angles s node1 (gNeighbors bonds node1) else s))).adjusts
          = ((if dF then
              (gNeighbors bonds node1).foldl (fun t node2 =>
                if node2 > node1 then
                  if (gNeighbors bonds node2).length > 1 then
                    create_dihedrals ⟨true, true⟩ t node1 (gNeighbors bonds node1) node2
                      (gNeighbors bonds node2) true
                  else t
                else t)
              (if aF then create_angles t node1 (gNeighbors bonds node1) else t)
            else (if aF then create_angles t node1 (gNeighbors bonds node1) else t))).dihedrals.map
              (fun q => (q.1, q.2.2.2)) := by
        split
        · refine foldl_rel (R := fun s t =>
              s.adjusts = t.dihedrals.map (fun q => (q.1, q.2.2.2))) ?_ _ _ _ hR1
          intro s t node2 hR2
          dsimp only
          split
          · split
            · exact create_dihedrals_rel ps node1 _ node2 _ s t hR2
            · exact hR2
          · exact hR2
        · exact hR1
      split
      · rw [create_impropers_adjusts, create_impropers_dihedrals]
        exact hR2
      · exact hR2
    · exact hR
  · rfl

/-! ## Sufficiency of the matcher's fuel -/

/-- Every continuation position extracted from an item sequence carries a
strictly smaller item sequence: the matcher's recursion depth is bounded by
`sizeItems`. -/
theorem neighbor_atom_exprs_size :
    ∀ (l : Items) (p : AtomExpr × Items), p ∈ neighbor_atom_exprs l →
      sizeItems p.2 < sizeItems l
  | .nil, p, h => by simp [neighbor_atom_exprs] at h
  | .atom e lbl rest, p, h => by
      simp only [neighbor_atom_exprs, List.mem_singleton] at h
      subst h
      simp [sizeItems]
  | .branch e lbl content rest, p, h => by
      simp only [neighbor_atom_exprs, List.mem_cons] at h
      rcases h with h | h
      · subst h
        simp [sizeItems]
        omega
      · have := neighbor_atom_exprs_size rest p h
        simp [sizeItems]
        omega

/-- Constraint evaluation never reports fuel exhaustion (it does not use
fuel). -/
theorem atom_expr_matches_no_outOfFuel (mol : Molecule) (rules : List Rule)
    (st : List TypeState) :
    ∀ (e : AtomExpr) (i : Nat),
      atom_expr_matches mol rules st e i ≠ .error .outOfFuel
  | .and_expression l r, i => by
      rw [atom_expr_matches]
      cases hl : atom_expr_matches mol rules st l i with
      | error e =>
        intro hcon
        exact atom_expr_matches_no_outOfFuel mol rules st l i
          (hl.trans (by simpa using hcon))
      | ok b =>
        cases b with
        | false => simp
        | true => exact atom_expr_matches_no_outOfFuel mol rules st r i
  | .or_expression l r, i => by
      rw [atom_expr_matches]
      cases hl : atom_expr_matches mol rules st l i with
      | error e =>
        intro hcon
        exact atom_expr_matches_no_outOfFuel mol rules st l i
          (hl.trans (by simpa using hcon))
      | ok b =>
        cases b with
        | true => simp
        | false => exact atom_expr_matches_no_outOfFuel mol rules st r i
  | .atom_id a, i => by
      cases a <;> simp [atom_expr_matches, atom_id_matches]

/-- An error reported by the pair scan is the result of one of the scanned
computations. -/
lemma scanPairs_error_mem :
    ∀ (l : List (Except MatchError Bool)) (err : MatchError),
      scanPairs l = .error err → Except.error err ∈ l := by
  intro l
  induction l with
  | nil => intro err h; exact absurd h (by simp [scanPairs])
  | cons x xs ih =>
    intro err h
    cases x with
    | error e =>
      have he : e = err := by simpa [scanPairs] using h
      rw [← he]
      exact List.mem_cons_self _ _
    | ok b =>
      cases b with
      | false => exact absurd h (by simp [scanPairs])
      | true => exact List.mem_cons_of_mem _ (ih err h)

/-- An error reported by the permutation scan is the result of one of the
scanned computations. -/
lemma scanPerms_error_mem :
    ∀ (l : List (Except MatchError Bool)) (err : MatchError),
      scanPerms l = .error err → Except.error err ∈ l := by
  intro l
  induction l with
  | nil => intro err h; exact absurd h (by simp [scanPerms])
  | cons x xs ih =>
    intro err h
    cases x with
    | error e =>
      have he : e = err := by simpa [scanPerms] using h
      rw [← he]
      exact List.mem_cons_self _ _
    | ok b =>
      cases b with
      | true => exact absurd h (by simp [scanPerms])
      | false => exact List.mem_cons_of_mem _ (ih err h)

/-- Any fuel above the recursion-depth bound is enough: the matcher never
reports fuel exhaustion, so the `outOfFuel` branch of the embedding is dead
code for the fuel `matchesExpr` supplies. -/
theorem matchesExprFuel_no_outOfFuel (mol : Molecule) (rules : List Rule)
    (st : List TypeState) :
    ∀ (n : Nat) (e : AtomExpr) (rest : Items) (i : Nat),
      sizeItems rest < n →
      matchesExprFuel mol rules st n e rest i ≠ .error .outOfFuel := by
  intro n
  induction n with
  | zero => intro e rest i h; exact absurd h (Nat.not_lt_zero _)
  | succ n ih =>
    intro e rest i hsz
    rw [matchesExprFuel]
    cases hA : atom_expr_matches mol rules st e i with
    | error err =>
      intro hcon
      have herr : err = .outOfFuel := by simpa using hcon
      exact atom_expr_matches_no_outOfFuel mol rules st e i (herr ▸ hA)
    | ok bb =>
      cases bb with
      | false => simp
      | true =>
        by_cases hE : (neighbor_atom_exprs rest).isEmpty = true
        · simp [hE]
        · have hE' : (neighbor_atom_exprs rest).isEmpty = false := by
            cases hx : (neighbor_atom_exprs rest).isEmpty
            · rfl
            · exact absurd hx hE
          simp only [hE', Bool.false_eq_true, if_false]
          by_cases hL : ((getAtom mol i).bond_partners).length
              < (neighbor_atom_exprs rest).length
          · rw [if_pos hL]; simp
          · rw [if_neg hL]
            intro hcon
            obtain ⟨perm, hperm, hpermEq⟩ := List.mem_map.mp
              (scanPerms_error_mem _ _ hcon)
            obtain ⟨pr, hpr, hprEq⟩ := List.mem_map.mp
              (scanPairs_error_mem _ _ hpermEq)
            obtain ⟨j, q⟩ := pr
            have hqmem : q ∈ neighbor_atom_exprs rest := (List.of_mem_zip hpr).2
            have hsz2 : sizeItems q.2 < n := by
              have h1 := neighbor_atom_exprs_size rest q hqmem
              omega
            exact ih q.1 q.2 j hsz2 hprEq

/-- The fuel `matchesExpr` supplies is sufficient. -/
theorem matchesExpr_no_outOfFuel (mol : Molecule) (rules : List Rule)
    (st : List TypeState) (e : AtomExpr) (rest : Items) (i : Nat) :
    matchesExpr mol rules st e rest i ≠ .error .outOfFuel :=
  matchesExprFuel_no_outOfFuel mol rules st (sizeItems rest + 1) e rest i
    (Nat.lt_succ_self _)

/-! ## Claim C8 -/

lemma gNodes_chain (a b c d : Nat) (hab : a ≠ b) (hac : a ≠ c) (had : a ≠ d)
    (hbc : b ≠ c) (hbd : b ≠ d) (hcd : c ≠ d) :
    gNodes [(a, b), (b, c), (c, d)] = [a, b, c, d] := by
  simp [gNodes, insertNew, List.foldl, hab, hac, had, hbc, hbd, hcd,
    hab.symm, hac.symm, had.symm, hbc.symm, hbd.symm, hcd.symm]

lemma gNeighbors_chain_a (a b c d : Nat) (hab : a ≠ b) (hac : a ≠ c) (had : a ≠ d)
    (hbc : b ≠ c) (hbd : b ≠ d) (hcd : c ≠ d) :
    gNeighbors [(a, b), (b, c), (c, d)] a = [b] := by
  simp [gNeighbors, insertNew, List.foldl, hab, hac, had, hbc, hbd, hcd,
    hab.symm, hac.symm, had.symm, hbc.symm, hbd.symm, hcd.symm]

lemma gNeighbors_chain_b (a b c d : Nat) (hab : a ≠ b) (hac : a ≠ c) (had : a ≠ d)
    (hbc : b ≠ c) (hbd : b ≠ d) (hcd : c ≠ d) :
    gNeighbors [(a, b), (b, c), (c, d)] b = [a, c] := by
  simp [gNeighbors, insertNew, List.foldl, hab, hac, had, hbc, hbd, hcd,
    hab.symm, hac.symm, had.symm, hbc.symm, hbd.symm, hcd.symm]

lemma gNeighbors_chain_c (a b c d : Nat) (hab : a ≠ b) (hac : a ≠ c) (had : a ≠ d)
    (hbc : b ≠ c) (hbd : b ≠ d) (hcd : c ≠ d) :
    gNeighbors [(a, b), (b, c), (c, d)] c = [b, d] := by
  simp [gNeighbors, insertNew, List.foldl, hab, hac, had, hbc, hbd, hcd,
    hab.symm, hac.symm, had.symm, hbc.symm, hbd.symm, hcd.symm]

lemma gNeighbors_chain_d (a b c d : Nat) (hab : a ≠ b) (hac : a ≠ c) (had : a ≠ d)
    (hbc : b ≠ c) (hbd : b ≠ d) (hcd : c ≠ d) :
    gNeighbors [(a, b), (b, c), (c, d)] d = [c] := by
  simp [gNeighbors, insertNew, List.foldl, hab, hac, had, hbc, hbd, hcd,
    hab.symm, hac.symm, had.symm, hbc.symm, hbd.symm, hcd.symm]

/-- C8: for a linear 4-atom chain `a–b–c–d` (so `b` and `c` have degree 2),
`create_forces` generates exactly one dihedral — the central bond is
processed only in the direction whose second node has the larger index, so
the dihedral comes out as `(a,b,c,d)` when `b < c` and as the reversed
tuple `(d,c,b,a)` otherwise; in either case the list has exactly one
element and never two. -/
theorem dihedral_chain_unique (a b c d : Nat) (rb : Bool)
    (hab : a ≠ b) (hac : a ≠ c) (had : a ≠ d)
    (hbc : b ≠ c) (hbd : b ≠ d) (hcd : c ≠ d) :
    (create_forces emptyFF [(a, b), (b, c), (c, d)] ⟨true, rb⟩).dihedrals
      = if b < c then [(a, b, c, d)] else [(d, c, b, a)] := by
  have hna := gNeighbors_chain_a a b c d hab hac had hbc hbd hcd
  have hnb := gNeighbors_chain_b a b c d hab hac had hbc hbd hcd
  have hnc := gNeighbors_chain_c a b c d hab hac had hbc hbd hcd
  have hnd := gNeighbors_chain_d a b c d hab hac had hbc hbd hcd
  have hnodes := gNodes_chain a b c d hab hac had hbc hbd hcd
  by_cases hbc2 : b < c
  · have h2 : ¬ b > c := by omega
    simp [create_forces, hnodes, hna, hnb, hnc, hnd, List.foldl, emptyFF,
      create_angles, create_dihedrals, create_impropers, combos2, combos3,
      prodList, List.filter, List.erase,
      hab, hac, had, hbc, hbd, hcd, hab.symm, hac.symm, had.symm,
      hbc.symm, hbd.symm, hcd.symm, hbc2, h2, apply_ite]
  · have h3 : c < b := by omega
    simp [create_forces, hnodes, hna, hnb, hnc, hnd, List.foldl, emptyFF,
      create_angles, create_dihedrals, create_impropers, combos2, combos3,
      prodList, List.filter, List.erase,
      hab, hac, had, hbc, hbd, hcd, hab.symm, hac.symm, had.symm,
      hbc.symm, hbd.symm, hcd.symm, hbc2, h3, apply_ite]

/-- Witness for C8: the concrete chain `0–1–2–3` yields exactly the single
dihedral `(0,1,2,3)`. -/
theorem dihedral_chain_unique_witness :
    (create_forces emptyFF [(0, 1), (1, 2), (2, 3)] ⟨true, false⟩).dihedrals
      = [(0, 1, 2, 3)] := by
  rw [dihedral_chain_unique 0 1 2 3 false (by decide) (by decide) (by decide)
    (by decide) (by decide) (by decide)]
  rfl

end Foyer
